import Mathlib

/-!
Verification of the bar-driven backtest engine of this repository.

The strategy logic (`TestStrategy.next`, `TestStrategy.stop`) and the
end-of-run reporting (`run_backtest`) are translated directly from
`src/cryptorebalancingdata.py` and `src/unnamed/part_000`.  The two files
differ in exactly one place: the pyramiding gate is
`trade_count < MAX` in `part_000` and `trade_count <= MAX` in
`cryptorebalancingdata.py`; both variants are embedded.

The backtrader broker (order fills, cash, position bookkeeping) and the EMA
indicator are library code that is not part of the repository sources; they
are modelled from the specification (sections 3, 4.1 and 4.2): fills execute
immediately at the strategy's reference price, the position keeps a
size-weighted average entry price, and the indicator values consumed on each
bar are inputs to the per-bar step.  Prices are embedded as rationals.
-/

/-- One OHLC bar.  The strategy reads only `high`, `low` and `close`
(`self.datahigh[0]`, `self.datalow[0]`, `self.dataclose[0]`); timestamp,
open and volume are never consulted by the embedded code. -/
structure Bar where
  high : ℚ
  low : ℚ
  close : ℚ
deriving DecidableEq

/-- Input consumed by one call of `TestStrategy.next`: the current bar
together with the current values `self.ema_high[0]` and `self.ema_low[0]`.
The EMA computation itself is indicator-library code outside the repository
sources, so its per-bar values are taken as inputs here. -/
structure StepInput where
  bar : Bar
  emaHigh : ℚ
  emaLow : ℚ
deriving DecidableEq

/-- Run configuration: the `MAX` strategy parameter (`max_allowed_adds`) and
the broker commission rate (`0` in `cryptorebalancingdata.py`, `0.001` in
`src/unnamed/part_000`). -/
structure Config where
  MAX : ℕ
  commission : ℚ
deriving DecidableEq

/-- State carried across bars by the strategy and the (modelled) broker:
`cash` and the open position (`posSize`, `posPrice` = average entry price,
both `0` when flat) live in the broker; `trade_count`, `open_positions`
(the per-lot entry prices, oldest first) and `equity_curve` are the
attributes of `TestStrategy`. -/
structure SimState where
  cash : ℚ
  posSize : ℚ
  posPrice : ℚ
  trade_count : ℕ
  open_positions : List ℚ
  equity_curve : List ℚ
deriving DecidableEq

/-- Modelled from the spec: the broker's buy fill (spec 4.2).  Debits cash by
`size * reference_price * (1 + commission_rate)` and moves the position's
average entry price to the size-weighted average (spec 3: cost basis derived
from lots).  Note `x / 0 = 0` for rationals, so a fill that empties the
position leaves the average price at `0`. -/
def brokerBuy (c : Config) (s : SimState) (size price : ℚ) : SimState :=
  { s with
    cash := s.cash - size * price * (1 + c.commission)
    posPrice := (s.posSize * s.posPrice + size * price) / (s.posSize + size)
    posSize := s.posSize + size }

/-- Modelled from the spec: the broker's sell fill (spec 4.2).  Credits cash
by `size * current_price * (1 - commission_rate)`; the current price is
taken as the bar's close.  A position whose size reaches `0` is destroyed
(spec 3), so its recorded average price resets to `0`. -/
def brokerSell (c : Config) (s : SimState) (size price : ℚ) : SimState :=
  { s with
    cash := s.cash + size * price * (1 - c.commission)
    posSize := s.posSize - size
    posPrice := if s.posSize - size = 0 then 0 else s.posPrice }

/-- Equity sampling at the top of `TestStrategy.next`: appends
`self.broker.getvalue()` (cash plus position value at the bar's close,
spec 3, EquityCurve) to `self.equity_curve`. -/
def sampleEquity (s : SimState) (b : Bar) : SimState :=
  { s with equity_curve := s.equity_curve ++ [s.cash + s.posSize * b.close] }

/-- Size of an initial entry: `float(cash / self.datalow[0] / self.MAX)`. -/
def entrySize (c : Config) (s : SimState) (b : Bar) : ℚ :=
  s.cash / b.low / (c.MAX : ℚ)

/-- Size of a pyramiding add: `float(cash / self.dataclose[0] / self.MAX)`. -/
def addSize (c : Config) (s : SimState) (b : Bar) : ℚ :=
  s.cash / b.close / (c.MAX : ℚ)

/-- Initial entry branch of `next`: `self.buy(size=size)` at the bar's low,
then `self.open_positions.append(self.datalow[0])` and
`self.trade_count += 1`. -/
def doEntry (c : Config) (s : SimState) (b : Bar) : SimState :=
  let s1 := brokerBuy c s (entrySize c s b) b.low
  { s1 with
    open_positions := s1.open_positions ++ [b.low]
    trade_count := s1.trade_count + 1 }

/-- Pyramiding add branch of `next`: `self.buy(size=size)` at the bar's
close, then `self.open_positions.append(self.dataclose[0])` and
`self.trade_count += 1`. -/
def doAdd (c : Config) (s : SimState) (b : Bar) : SimState :=
  let s1 := brokerBuy c s (addSize c s b) b.close
  { s1 with
    open_positions := s1.open_positions ++ [b.close]
    trade_count := s1.trade_count + 1 }

/-- Exit branch of `next`: `self.sell(size=self.position.size)`, then
`self.open_positions.pop(0)` and `self.trade_count += 1`. -/
def doSell (c : Config) (s : SimState) (b : Bar) : SimState :=
  let s1 := brokerSell c s s.posSize b.close
  { s1 with
    open_positions := s1.open_positions.tail
    trade_count := s1.trade_count + 1 }

/-- Action taken by one call of `next`, used to label traces. -/
inductive Act where
  | entry
  | add
  | sellAll
  | hold
deriving DecidableEq

/-- Branch structure of `TestStrategy.next` from `src/unnamed/part_000`
(lines 55-79), evaluated on the state after equity sampling:
if `low > ema_high` then enter when flat, else (when
`trade_count < MAX` and `low > open_positions[-1]`) add; elif
`high < ema_low and low <= position.price` then, if a position is open,
sell the whole position.  `open_positions.getLastD 0` embeds
`self.open_positions[-1]` (the list is nonempty whenever the branch reading
it is reached on a run) and `posSize = 0` embeds the falsity of
`self.position`. -/
def strategyStep (c : Config) (s : SimState) (inp : StepInput) : SimState × Act :=
  if inp.bar.low > inp.emaHigh then
    if s.posSize = 0 then
      (doEntry c s inp.bar, Act.entry)
    else if s.trade_count < c.MAX then
      if inp.bar.low > s.open_positions.getLastD 0 then
        (doAdd c s inp.bar, Act.add)
      else (s, Act.hold)
    else (s, Act.hold)
  else if inp.bar.high < inp.emaLow ∧ inp.bar.low ≤ s.posPrice then
    if s.posSize = 0 then (s, Act.hold)
    else (doSell c s inp.bar, Act.sellAll)
  else (s, Act.hold)

/-- One full call of `TestStrategy.next` (src/unnamed/part_000, lines
47-79): sample the portfolio value into the equity curve, then run the
trading branches. -/
def nextBar (c : Config) (s : SimState) (inp : StepInput) : SimState × Act :=
  strategyStep c (sampleEquity s inp.bar) inp

/-- The `MAX` constant of the strategy in `src/cryptorebalancingdata.py`
(`self.MAX = 5`). -/
def cryptoMAX : ℕ := 5

/-- One full call of `TestStrategy.next` from `src/cryptorebalancingdata.py`
(lines 213-245).  Identical to `nextBar` except that `MAX` is fixed to `5`,
no commission is configured, and the pyramiding gate is
`self.trade_count <= self.MAX` instead of the strict `<` of
`src/unnamed/part_000` (line 229 versus line 63). -/
def nextBarCrypto (s0 : SimState) (inp : StepInput) : SimState × Act :=
  let c : Config := { MAX := cryptoMAX, commission := 0 }
  let s := sampleEquity s0 inp.bar
  if inp.bar.low > inp.emaHigh then
    if s.posSize = 0 then
      (doEntry c s inp.bar, Act.entry)
    else if s.trade_count ≤ cryptoMAX then
      if inp.bar.low > s.open_positions.getLastD 0 then
        (doAdd c s inp.bar, Act.add)
      else (s, Act.hold)
    else (s, Act.hold)
  else if inp.bar.high < inp.emaLow ∧ inp.bar.low ≤ s.posPrice then
    if s.posSize = 0 then (s, Act.hold)
    else (doSell c s inp.bar, Act.sellAll)
  else (s, Act.hold)

/-- Fresh per-run state: configured initial cash, empty position, no trades,
no lot records, empty equity curve (spec 4.5). -/
def initState (initial_cash : ℚ) : SimState :=
  { cash := initial_cash
    posSize := 0
    posPrice := 0
    trade_count := 0
    open_positions := []
    equity_curve := [] }

/-- Drive the per-bar loop: fold `next` over the bar/indicator inputs. -/
def runSteps (c : Config) (s : SimState) (steps : List StepInput) : SimState :=
  steps.foldl (fun st i => (nextBar c st i).1) s

/-- Action trace of a run, one `Act` per processed bar. -/
def runTrace (c : Config) : SimState → List StepInput → List Act
  | _, [] => []
  | s, i :: rest => (nextBar c s i).2 :: runTrace c (nextBar c s i).1 rest

/-- Running maximum of a list continued from an already accumulated
maximum `m`. -/
def cummaxFrom (m : ℚ) : List ℚ → List ℚ
  | [] => []
  | x :: xs => max m x :: cummaxFrom (max m x) xs

/-- Pandas `Series.cummax`: elementwise running maximum. -/
def cummax : List ℚ → List ℚ
  | [] => []
  | x :: xs => x :: cummaxFrom x xs

/-- Pandas `Series.min` on the nonempty series produced in `stop`
(`0` for an empty one). -/
def listMin : List ℚ → ℚ
  | [] => 0
  | x :: xs => xs.foldl min x

/-- Maximum of a nonempty list (`0` for an empty one). -/
def listMax : List ℚ → ℚ
  | [] => 0
  | x :: xs => xs.foldl max x

/-- One drawdown term: `(cumulative_returns - peak) / peak` elementwise. -/
def ddTerm (cr p : ℚ) : ℚ :=
  (cr - p) / p

/-- Maximum-drawdown computation of `TestStrategy.stop`
(src/unnamed/part_000, lines 39-45): divide the equity curve by its first
sample, take the running maximum, form `(cumulative - peak) / peak`
elementwise, and return the minimum times `100`.  `List.headI` embeds
`equity_curve.iloc[0]`. -/
def maxDrawdown (equity_curve : List ℚ) : ℚ :=
  let cumulative_returns := equity_curve.map (fun v => v / equity_curve.headI)
  let peak := cummax cumulative_returns
  let drawdown := List.zipWith ddTerm cumulative_returns peak
  listMin drawdown * 100

/-- Maximum drawdown as the specification words it (spec 4.4, `finalize`):
normalize by the first sample, define the peak at each index as the running
maximum of the normalized curve up to that index, the drawdown at each index
as `(normalized - peak) / peak`, and return `min(drawdown) * 100`.  Written
from the spec sentence for comparison against `maxDrawdown`. -/
def specMaxDrawdown (ec : List ℚ) : ℚ :=
  let normalized := ec.map (fun v => v / ec.headI)
  let drawdown := (List.range normalized.length).map (fun i =>
    ddTerm (normalized.getD i 0) (listMax (normalized.take (i + 1))))
  listMin drawdown * 100

/-- Python `sum(...)` over a list of rationals: left fold from `0`. -/
def pySum (l : List ℚ) : ℚ :=
  l.foldl (· + ·) 0

/-- Result record produced per run (src/unnamed/part_000, lines 149-166). -/
structure ResultRecord where
  realized_profit_percent : ℚ
  unrealized_profit_percent : ℚ
  trade_count : ℕ
  max_drawdown : ℚ
deriving DecidableEq

/-- Last close of the processed data (`data_df['close'].iloc[-1]`). -/
def lastClose (steps : List StepInput) : ℚ :=
  (steps.map (fun i => i.bar.close)).getLastD 0

/-- End-of-run metrics of `run_backtest` (src/unnamed/part_000, lines
149-155): realized profit percent from the final portfolio value,
unrealized profit as `sum((current_price - entry_price) / entry_price * 100
for entry_price in strategy.open_positions)`, the trade count, and the
`stop` maximum drawdown. -/
def runBacktest (c : Config) (initial_value : ℚ) (steps : List StepInput) : ResultRecord :=
  let final := runSteps c (initState initial_value) steps
  let final_value := final.cash + final.posSize * lastClose steps
  { realized_profit_percent := (final_value - initial_value) / initial_value * 100
    unrealized_profit_percent :=
      pySum (final.open_positions.map
        (fun entry_price => (lastClose steps - entry_price) / entry_price * 100))
    trade_count := final.trade_count
    max_drawdown := maxDrawdown final.equity_curve }

@[simp] theorem sampleEquity_cash (s : SimState) (b : Bar) :
    (sampleEquity s b).cash = s.cash := rfl

@[simp] theorem sampleEquity_posSize (s : SimState) (b : Bar) :
    (sampleEquity s b).posSize = s.posSize := rfl

@[simp] theorem sampleEquity_posPrice (s : SimState) (b : Bar) :
    (sampleEquity s b).posPrice = s.posPrice := rfl

@[simp] theorem sampleEquity_trade_count (s : SimState) (b : Bar) :
    (sampleEquity s b).trade_count = s.trade_count := rfl

@[simp] theorem sampleEquity_open_positions (s : SimState) (b : Bar) :
    (sampleEquity s b).open_positions = s.open_positions := rfl

@[simp] theorem sampleEquity_equity_curve (s : SimState) (b : Bar) :
    (sampleEquity s b).equity_curve = s.equity_curve ++ [s.cash + s.posSize * b.close] := rfl

@[simp] theorem doEntry_cash (c : Config) (s : SimState) (b : Bar) :
    (doEntry c s b).cash = s.cash - entrySize c s b * b.low * (1 + c.commission) := rfl

@[simp] theorem doEntry_posSize (c : Config) (s : SimState) (b : Bar) :
    (doEntry c s b).posSize = s.posSize + entrySize c s b := rfl

@[simp] theorem doEntry_posPrice (c : Config) (s : SimState) (b : Bar) :
    (doEntry c s b).posPrice
      = (s.posSize * s.posPrice + entrySize c s b * b.low) / (s.posSize + entrySize c s b) := rfl

@[simp] theorem doEntry_trade_count (c : Config) (s : SimState) (b : Bar) :
    (doEntry c s b).trade_count = s.trade_count + 1 := rfl

@[simp] theorem doEntry_open_positions (c : Config) (s : SimState) (b : Bar) :
    (doEntry c s b).open_positions = s.open_positions ++ [b.low] := rfl

@[simp] theorem doEntry_equity_curve (c : Config) (s : SimState) (b : Bar) :
    (doEntry c s b).equity_curve = s.equity_curve := rfl

@[simp] theorem doAdd_cash (c : Config) (s : SimState) (b : Bar) :
    (doAdd c s b).cash = s.cash - addSize c s b * b.close * (1 + c.commission) := rfl

@[simp] theorem doAdd_posSize (c : Config) (s : SimState) (b : Bar) :
    (doAdd c s b).posSize = s.posSize + addSize c s b := rfl

@[simp] theorem doAdd_posPrice (c : Config) (s : SimState) (b : Bar) :
    (doAdd c s b).posPrice
      = (s.posSize * s.posPrice + addSize c s b * b.close) / (s.posSize + addSize c s b) := rfl

@[simp] theorem doAdd_trade_count (c : Config) (s : SimState) (b : Bar) :
    (doAdd c s b).trade_count = s.trade_count + 1 := rfl

@[simp] theorem doAdd_open_positions (c : Config) (s : SimState) (b : Bar) :
    (doAdd c s b).open_positions = s.open_positions ++ [b.close] := rfl

@[simp] theorem doAdd_equity_curve (c : Config) (s : SimState) (b : Bar) :
    (doAdd c s b).equity_curve = s.equity_curve := rfl

@[simp] theorem doSell_cash (c : Config) (s : SimState) (b : Bar) :
    (doSell c s b).cash = s.cash + s.posSize * b.close * (1 - c.commission) := rfl

@[simp] theorem doSell_posSize (c : Config) (s : SimState) (b : Bar) :
    (doSell c s b).posSize = 0 := by
  simp [doSell, brokerSell]

@[simp] theorem doSell_posPrice (c : Config) (s : SimState) (b : Bar) :
    (doSell c s b).posPrice = 0 := by
  simp [doSell, brokerSell]

@[simp] theorem doSell_trade_count (c : Config) (s : SimState) (b : Bar) :
    (doSell c s b).trade_count = s.trade_count + 1 := rfl

@[simp] theorem doSell_open_positions (c : Config) (s : SimState) (b : Bar) :
    (doSell c s b).open_positions = s.open_positions.tail := rfl

@[simp] theorem doSell_equity_curve (c : Config) (s : SimState) (b : Bar) :
    (doSell c s b).equity_curve = s.equity_curve := rfl

@[simp] theorem initState_cash (q : ℚ) : (initState q).cash = q := rfl

@[simp] theorem initState_posSize (q : ℚ) : (initState q).posSize = 0 := rfl

@[simp] theorem initState_posPrice (q : ℚ) : (initState q).posPrice = 0 := rfl

@[simp] theorem initState_trade_count (q : ℚ) : (initState q).trade_count = 0 := rfl

@[simp] theorem initState_open_positions (q : ℚ) : (initState q).open_positions = [] := rfl

@[simp] theorem initState_equity_curve (q : ℚ) : (initState q).equity_curve = [] := rfl

/-- Trade count never decreases across one call of `next`. -/
theorem nextBar_trade_count_le (c : Config) (s : SimState) (inp : StepInput) :
    s.trade_count ≤ ((nextBar c s inp).1).trade_count := by
  simp only [nextBar, strategyStep]
  split_ifs <;> simp

/-- A pyramiding add only fires while `trade_count < MAX`, and it increments
the trade count by exactly one. -/
theorem nextBar_add_facts (c : Config) (s : SimState) (inp : StepInput)
    (h : (nextBar c s inp).2 = Act.add) :
    s.trade_count < c.MAX ∧ ((nextBar c s inp).1).trade_count = s.trade_count + 1 := by
  simp only [nextBar, strategyStep] at h ⊢
  split_ifs at h ⊢
  all_goals simp_all

/-- One call of `next` preserves the invariant that a flat position has
recorded price zero. -/
theorem nextBar_flat_price (c : Config) (s : SimState) (inp : StepInput)
    (h : s.posSize = 0 → s.posPrice = 0) :
    (nextBar c s inp).1.posSize = 0 → (nextBar c s inp).1.posPrice = 0 := by
  simp only [nextBar, strategyStep]
  intro hp
  split_ifs at hp ⊢ <;> simp_all

/-- Along any run, a flat position has recorded price zero. -/
theorem runSteps_flat_price (steps : List StepInput) (c : Config) (s : SimState)
    (h : s.posSize = 0 → s.posPrice = 0) :
    (runSteps c s steps).posSize = 0 → (runSteps c s steps).posPrice = 0 := by
  induction steps generalizing s with
  | nil => simpa [runSteps] using h
  | cons i rest ih =>
    simpa [runSteps, List.foldl_cons] using
      ih (nextBar c s i).1 (nextBar_flat_price c s i h)

/-- C1 (counterexample): in `src/cryptorebalancingdata.py` the pyramiding
gate is `self.trade_count <= self.MAX` (line 229), so with a long position,
`trade_count = 5 = MAX`, a bar whose low exceeds the EMA of highs and the
last entry price, an additional lot IS bought even though `trade_count` is
not strictly less than `MAX` — refuting the claim that no add occurs when
the strict bound fails. -/
theorem crypto_add_at_max_trade_count :
    (nextBarCrypto ⟨100, 1, 10, 5, [10], []⟩ ⟨⟨30, 20, 25⟩, 15, 0⟩).2 = Act.add
      ∧ ¬((⟨100, 1, 10, 5, [10], []⟩ : SimState).trade_count < cryptoMAX) := by
  constructor
  · norm_num [nextBarCrypto, cryptoMAX]
  · norm_num [cryptoMAX]

/-- C1 (amended): for the parameterized strategy of `src/unnamed/part_000`,
in the LONG state (open position) an additional lot is bought on a bar
exactly when the bar's low exceeds `ema_high`, `trade_count` is strictly
less than `MAX`, and the bar's low strictly exceeds the most recently added
lot's entry price; the `cryptorebalancingdata.py` variant instead gates adds
by `trade_count <= MAX`. -/
theorem add_occurs_iff (c : Config) (s : SimState) (inp : StepInput)
    (hlong : s.posSize ≠ 0) :
    (nextBar c s inp).2 = Act.add ↔
      (inp.bar.low > inp.emaHigh ∧ s.trade_count < c.MAX
        ∧ inp.bar.low > s.open_positions.getLastD 0) := by
  simp only [nextBar, strategyStep, sampleEquity_posSize, sampleEquity_trade_count,
    sampleEquity_open_positions, sampleEquity_posPrice]
  split_ifs
  all_goals simp_all

/-- C1 (witness): concrete LONG state in which all three add conditions
hold and the add fires. -/
theorem add_occurs_iff_witness :
    (nextBar ⟨5, 0⟩ ⟨100, 1, 10, 1, [10], []⟩ ⟨⟨30, 20, 25⟩, 15, 0⟩).2 = Act.add :=
  (add_occurs_iff ⟨5, 0⟩ ⟨100, 1, 10, 1, [10], []⟩ ⟨⟨30, 20, 25⟩, 15, 0⟩
      (by norm_num)).mpr ⟨by norm_num, by norm_num, by norm_num⟩

/-- C2: when the exit condition holds in the LONG state (high below the EMA
of lows, low at or below the recorded position price, entry condition
false), `next` issues a single sell of the entire position size (position
goes to zero, cash credited once, one trade counted) and pops exactly the
oldest lot record; the lot-record history empties exactly when at most one
record was held, and with several records a popped history remains. -/
theorem exit_sells_all_pops_oldest (c : Config) (s : SimState) (inp : StepInput)
    (hnoentry : ¬ inp.bar.low > inp.emaHigh)
    (hexit : inp.bar.high < inp.emaLow ∧ inp.bar.low ≤ s.posPrice)
    (hlong : s.posSize ≠ 0) :
    (nextBar c s inp).2 = Act.sellAll
      ∧ (nextBar c s inp).1.posSize = 0
      ∧ (nextBar c s inp).1.cash = s.cash + s.posSize * inp.bar.close * (1 - c.commission)
      ∧ (nextBar c s inp).1.trade_count = s.trade_count + 1
      ∧ (nextBar c s inp).1.open_positions = s.open_positions.tail
      ∧ ((nextBar c s inp).1.open_positions = [] ↔ s.open_positions.length ≤ 1) := by
  have hiff : s.open_positions.tail = [] ↔ s.open_positions.length ≤ 1 := by
    rcases s.open_positions with _ | ⟨a, _ | ⟨b, t⟩⟩ <;> simp
  simp only [nextBar, strategyStep, sampleEquity_posSize, sampleEquity_posPrice,
    sampleEquity_trade_count, sampleEquity_open_positions, sampleEquity_cash]
  rw [if_neg hnoentry, if_pos hexit, if_neg hlong]
  exact ⟨rfl, by simp, by simp, by simp, by simp, by simp [hiff]⟩

/-- C2 (witness): concrete two-lot LONG state on an exit bar: whole position
sold, oldest record popped, one record remains. -/
theorem exit_sells_all_pops_oldest_witness :
    (nextBar ⟨5, 0⟩ ⟨50, 2, 10, 3, [4, 7], []⟩ ⟨⟨3, 2, 3⟩, 10, 4⟩).2 = Act.sellAll
      ∧ (nextBar ⟨5, 0⟩ ⟨50, 2, 10, 3, [4, 7], []⟩ ⟨⟨3, 2, 3⟩, 10, 4⟩).1.posSize = 0
      ∧ (nextBar ⟨5, 0⟩ ⟨50, 2, 10, 3, [4, 7], []⟩ ⟨⟨3, 2, 3⟩, 10, 4⟩).1.cash
          = 50 + 2 * 3 * (1 - (0 : ℚ))
      ∧ (nextBar ⟨5, 0⟩ ⟨50, 2, 10, 3, [4, 7], []⟩ ⟨⟨3, 2, 3⟩, 10, 4⟩).1.trade_count = 3 + 1
      ∧ (nextBar ⟨5, 0⟩ ⟨50, 2, 10, 3, [4, 7], []⟩ ⟨⟨3, 2, 3⟩, 10, 4⟩).1.open_positions
          = ([4, 7] : List ℚ).tail
      ∧ ((nextBar ⟨5, 0⟩ ⟨50, 2, 10, 3, [4, 7], []⟩ ⟨⟨3, 2, 3⟩, 10, 4⟩).1.open_positions = []
          ↔ ([4, 7] : List ℚ).length ≤ 1) :=
  exit_sells_all_pops_oldest ⟨5, 0⟩ ⟨50, 2, 10, 3, [4, 7], []⟩ ⟨⟨3, 2, 3⟩, 10, 4⟩
    (by norm_num) ⟨by norm_num, by norm_num⟩ (by norm_num)

/-- C3 (counterexample): a single qualifying bar processed from the fresh
zero-cash ledger does NOT leave the ledger unchanged: the computed size is
zero, yet the strategy still appends the entry price to the lot records and
increments `trade_count` (there is no InsufficientCash guard in `next`). -/
theorem zero_cash_entry_mutates_ledger :
    (initState 0).trade_count = 0 ∧ (initState 0).open_positions = []
      ∧ (nextBar ⟨5, 1 / 1000⟩ (initState 0) ⟨⟨12, 10, 11⟩, 5, 0⟩).1.trade_count = 1
      ∧ (nextBar ⟨5, 1 / 1000⟩ (initState 0) ⟨⟨12, 10, 11⟩, 5, 0⟩).1.open_positions = [10] := by
  refine ⟨rfl, rfl, ?_, ?_⟩ <;> norm_num [nextBar, strategyStep]

/-- C3 (amended): on a qualifying bar from FLAT with zero cash, the sizing
formula yields size `0`, so the fill leaves cash and position size
unchanged, but the strategy still appends the bar's low to the lot records
and increments `trade_count`; the ledger is not left untouched. -/
theorem zero_cash_entry_effects (c : Config) (s : SimState) (inp : StepInput)
    (hcash : s.cash = 0) (hflat : s.posSize = 0)
    (hsig : inp.bar.low > inp.emaHigh) :
    (nextBar c s inp).1.cash = 0
      ∧ (nextBar c s inp).1.posSize = 0
      ∧ (nextBar c s inp).1.open_positions = s.open_positions ++ [inp.bar.low]
      ∧ (nextBar c s inp).1.trade_count = s.trade_count + 1 := by
  simp only [nextBar, strategyStep, sampleEquity_posSize]
  rw [if_pos hsig, if_pos hflat]
  refine ⟨?_, ?_, ?_, ?_⟩ <;> simp [entrySize, hcash, hflat]

/-- C3 (witness): the amended statement evaluated on the zero-cash ledger
and a qualifying bar. -/
theorem zero_cash_entry_effects_witness :
    (nextBar ⟨5, 1 / 1000⟩ (initState 0) ⟨⟨12, 10, 11⟩, 5, 0⟩).1.cash = 0
      ∧ (nextBar ⟨5, 1 / 1000⟩ (initState 0) ⟨⟨12, 10, 11⟩, 5, 0⟩).1.posSize = 0
      ∧ (nextBar ⟨5, 1 / 1000⟩ (initState 0) ⟨⟨12, 10, 11⟩, 5, 0⟩).1.open_positions
          = (initState 0).open_positions ++ [10]
      ∧ (nextBar ⟨5, 1 / 1000⟩ (initState 0) ⟨⟨12, 10, 11⟩, 5, 0⟩).1.trade_count
          = (initState 0).trade_count + 1 :=
  zero_cash_entry_effects ⟨5, 1 / 1000⟩ (initState 0) ⟨⟨12, 10, 11⟩, 5, 0⟩
    rfl rfl (by norm_num)

/-- C10: in any reachable state with no open position the recorded position
price is zero, so on a bar with positive low the exit branch's condition is
false, no sell action is issued, and the lot records are never popped while
flat (they are unchanged, or appended to by an entry). -/
theorem flat_never_sells (c : Config) (cash : ℚ) (steps : List StepInput) (inp : StepInput)
    (hflat : (runSteps c (initState cash) steps).posSize = 0)
    (hlow : 0 < inp.bar.low) :
    (runSteps c (initState cash) steps).posPrice = 0
      ∧ ¬(inp.bar.high < inp.emaLow
            ∧ inp.bar.low ≤ (runSteps c (initState cash) steps).posPrice)
      ∧ (nextBar c (runSteps c (initState cash) steps) inp).2 ≠ Act.sellAll
      ∧ ((nextBar c (runSteps c (initState cash) steps) inp).1.open_positions
            = (runSteps c (initState cash) steps).open_positions
          ∨ (nextBar c (runSteps c (initState cash) steps) inp).1.open_positions
            = (runSteps c (initState cash) steps).open_positions ++ [inp.bar.low]) := by
  have hprice : (runSteps c (initState cash) steps).posPrice = 0 :=
    runSteps_flat_price steps c (initState cash) (fun _ => rfl) hflat
  refine ⟨hprice, ?_, ?_, ?_⟩
  · rintro ⟨-, h2⟩
    rw [hprice] at h2
    linarith
  all_goals
    simp only [nextBar, strategyStep, sampleEquity_posSize, sampleEquity_posPrice,
      sampleEquity_open_positions]
    rw [if_pos hflat]
    have hnoexit : ¬(inp.bar.high < inp.emaLow
        ∧ inp.bar.low ≤ (runSteps c (initState cash) steps).posPrice) := by
      rintro ⟨-, h2⟩
      rw [hprice] at h2
      linarith
    rw [if_neg hnoexit]
    split_ifs <;> simp

/-- C10 (witness): the empty run is flat; on a bar with positive low whose
high is below the EMA of lows, no sell is issued and no lot record popped. -/
theorem flat_never_sells_witness :
    (runSteps ⟨5, 0⟩ (initState 100) []).posPrice = 0
      ∧ ¬((2 : ℚ) < 3 ∧ (1 : ℚ) ≤ (runSteps ⟨5, 0⟩ (initState 100) []).posPrice)
      ∧ (nextBar ⟨5, 0⟩ (runSteps ⟨5, 0⟩ (initState 100) []) ⟨⟨2, 1, 2⟩, 5, 3⟩).2 ≠ Act.sellAll
      ∧ ((nextBar ⟨5, 0⟩ (runSteps ⟨5, 0⟩ (initState 100) []) ⟨⟨2, 1, 2⟩, 5, 3⟩).1.open_positions
            = (runSteps ⟨5, 0⟩ (initState 100) []).open_positions
          ∨ (nextBar ⟨5, 0⟩ (runSteps ⟨5, 0⟩ (initState 100) []) ⟨⟨2, 1, 2⟩, 5, 3⟩).1.open_positions
            = (runSteps ⟨5, 0⟩ (initState 100) []).open_positions ++ [1]) :=
  flat_never_sells ⟨5, 0⟩ 100 [] ⟨⟨2, 1, 2⟩, 5, 3⟩ rfl (by norm_num)

/-- C6 (helper): along any run the number of add actions plus the saturated
trade count is bounded by `MAX`, because adds only fire while
`trade_count < MAX` and each one increments the count. -/
theorem runTrace_adds_bound (steps : List StepInput) (c : Config) (s : SimState) :
    (runTrace c s steps).count Act.add + min s.trade_count c.MAX ≤ c.MAX := by
  induction steps generalizing s with
  | nil => simp [runTrace]
  | cons i rest ih =>
    have hmono := nextBar_trade_count_le c s i
    have hih := ih (nextBar c s i).1
    rw [runTrace, List.count_cons]
    by_cases h : (nextBar c s i).2 = Act.add
    · obtain ⟨hf1, hf2⟩ := nextBar_add_facts c s i h
      rw [hf2, Nat.min_eq_left hf1] at hih
      rw [Nat.min_eq_left (Nat.le_of_lt hf1)]
      simp only [h, beq_self_eq_true, if_true]
      omega
    · have hne : ((nextBar c s i).2 == Act.add) = false := by
        simpa [beq_iff_eq] using h
      rw [hne]
      simp only [Bool.false_eq_true, if_false]
      have hmin : min s.trade_count c.MAX ≤ min (nextBar c s i).1.trade_count c.MAX :=
        min_le_min hmono (le_refl _)
      omega

/-- C6 (amended): over every run from a fresh ledger, the number of
pyramiding add trades never exceeds `max_allowed_adds`; initial entries
from FLAT and exit sells are not bounded by it, so the total `trade_count`
can exceed `max_allowed_adds` plus one exit per fully closed cycle. -/
theorem adds_le_max (c : Config) (cash : ℚ) (steps : List StepInput) :
    (runTrace c (initState cash) steps).count Act.add ≤ c.MAX := by
  have h := runTrace_adds_bound steps c (initState cash)
  simpa using h

/-- C6 (counterexample): a four-bar run with `MAX = 1` containing two full
entry/exit cycles ends with `trade_count = 4`, which exceeds
`max_allowed_adds` plus one exit trade per fully closed cycle
(`1 + 2 = 3`): entries from FLAT are not gated by `MAX`. -/
theorem trade_count_exceeds_claimed_bound :
    (runSteps ⟨1, 0⟩ (initState 100)
        [⟨⟨11, 10, 10⟩, 5, 0⟩, ⟨⟨8, 7, 8⟩, 50, 9⟩,
          ⟨⟨11, 10, 10⟩, 5, 0⟩, ⟨⟨8, 7, 8⟩, 50, 9⟩]).trade_count = 4
      ∧ (runTrace ⟨1, 0⟩ (initState 100)
          [⟨⟨11, 10, 10⟩, 5, 0⟩, ⟨⟨8, 7, 8⟩, 50, 9⟩,
            ⟨⟨11, 10, 10⟩, 5, 0⟩, ⟨⟨8, 7, 8⟩, 50, 9⟩]).count Act.sellAll = 2
      ∧ ¬((runSteps ⟨1, 0⟩ (initState 100)
            [⟨⟨11, 10, 10⟩, 5, 0⟩, ⟨⟨8, 7, 8⟩, 50, 9⟩,
              ⟨⟨11, 10, 10⟩, 5, 0⟩, ⟨⟨8, 7, 8⟩, 50, 9⟩]).trade_count
          ≤ (⟨1, 0⟩ : Config).MAX
            + (runTrace ⟨1, 0⟩ (initState 100)
                [⟨⟨11, 10, 10⟩, 5, 0⟩, ⟨⟨8, 7, 8⟩, 50, 9⟩,
                  ⟨⟨11, 10, 10⟩, 5, 0⟩, ⟨⟨8, 7, 8⟩, 50, 9⟩]).count Act.sellAll) := by
  refine ⟨?_, ?_, ?_⟩ <;>
    norm_num [runSteps, runTrace, nextBar, strategyStep, entrySize, List.count_cons] <;>
    decide

/-- Python's `sum` (a left fold from `0`) agrees with `List.sum`. -/
theorem pySum_eq_sum (l : List ℚ) : pySum l = l.sum := by
  have key : ∀ (l2 : List ℚ) (a : ℚ), l2.foldl (· + ·) a = a + l2.sum := by
    intro l2
    induction l2 with
    | nil => intro a; simp
    | cons x xs ih =>
      intro a
      simp only [List.foldl_cons, ih, List.sum_cons]
      ring
  simpa [pySum] using key l 0

/-- C7: the unrealized profit percent reported at run end equals the sum,
over all recorded still-open lot entry prices, of
`(last_close - entry_price) / entry_price * 100`; each lot contributes its
raw percentage, unweighted by lot size. -/
theorem unrealized_eq_sum (c : Config) (cash : ℚ) (steps : List StepInput) :
    (runBacktest c cash steps).unrealized_profit_percent
      = ((runSteps c (initState cash) steps).open_positions.map
          (fun entry_price => (lastClose steps - entry_price) / entry_price * 100)).sum :=
  pySum_eq_sum _

/-- C9: a concrete run (entry, pyramiding add, then one exit) in which a
two-lot position is fully closed by one sell: the whole size is sold, only
one (the oldest) record is popped, so an entry-price record persists after
the position size reaches zero, and the end-of-run unrealized profit still
sums over that record (`(8 - 20) / 20 * 100 = -60`). -/
theorem full_close_keeps_records :
    (runSteps ⟨2, 0⟩ (initState 100)
        [⟨⟨11, 10, 10⟩, 5, 0⟩, ⟨⟨21, 20, 20⟩, 5, 0⟩]).open_positions.length = 2
      ∧ (nextBar ⟨2, 0⟩ (runSteps ⟨2, 0⟩ (initState 100)
          [⟨⟨11, 10, 10⟩, 5, 0⟩, ⟨⟨21, 20, 20⟩, 5, 0⟩]) ⟨⟨8, 7, 8⟩, 50, 9⟩).2 = Act.sellAll
      ∧ (runSteps ⟨2, 0⟩ (initState 100)
          [⟨⟨11, 10, 10⟩, 5, 0⟩, ⟨⟨21, 20, 20⟩, 5, 0⟩, ⟨⟨8, 7, 8⟩, 50, 9⟩]).posSize = 0
      ∧ (runSteps ⟨2, 0⟩ (initState 100)
          [⟨⟨11, 10, 10⟩, 5, 0⟩, ⟨⟨21, 20, 20⟩, 5, 0⟩, ⟨⟨8, 7, 8⟩, 50, 9⟩]).open_positions
          = [20]
      ∧ (runBacktest ⟨2, 0⟩ 100
          [⟨⟨11, 10, 10⟩, 5, 0⟩, ⟨⟨21, 20, 20⟩, 5, 0⟩,
            ⟨⟨8, 7, 8⟩, 50, 9⟩]).unrealized_profit_percent = -60 := by
  refine ⟨?_, ?_, ?_, ?_, ?_⟩ <;>
    norm_num [runBacktest, runSteps, nextBar, strategyStep, entrySize, addSize, pySum,
      lastClose]

/-- C8: every buy sizes as `cash / reference_price / MAX`: an initial entry
from FLAT references the current bar's low, a pyramiding add references the
current bar's close, and in both cases that reference price is the one
appended to the lot records. -/
theorem buy_size_formula (c : Config) (s : SimState) (inp : StepInput) :
    (s.posSize = 0 → inp.bar.low > inp.emaHigh →
        (nextBar c s inp).1.posSize = s.cash / inp.bar.low / (c.MAX : ℚ)
          ∧ (nextBar c s inp).1.open_positions = s.open_positions ++ [inp.bar.low])
      ∧ (s.posSize ≠ 0 → inp.bar.low > inp.emaHigh → s.trade_count < c.MAX →
          inp.bar.low > s.open_positions.getLastD 0 →
        (nextBar c s inp).1.posSize = s.posSize + s.cash / inp.bar.close / (c.MAX : ℚ)
          ∧ (nextBar c s inp).1.open_positions = s.open_positions ++ [inp.bar.close]) := by
  constructor
  · intro hflat hsig
    simp only [nextBar, strategyStep, sampleEquity_posSize]
    rw [if_pos hsig, if_pos hflat]
    constructor <;> simp [entrySize, hflat]
  · intro hlong hsig hcount hlast
    simp only [nextBar, strategyStep, sampleEquity_posSize, sampleEquity_trade_count,
      sampleEquity_open_positions]
    rw [if_pos hsig, if_neg hlong, if_pos hcount, if_pos hlast]
    constructor <;> simp [addSize]

/-- C8 (witness): entry sizing `100 / 10 / 2 = 5` from FLAT, add sizing
`100 / 20 / 2 = 5 / 2` in a LONG state. -/
theorem buy_size_formula_witness :
    (nextBar ⟨2, 0⟩ (initState 100) ⟨⟨11, 10, 10⟩, 5, 0⟩).1.posSize = 5
      ∧ (nextBar ⟨2, 0⟩ ⟨100, 5, 10, 1, [10], []⟩ ⟨⟨21, 20, 20⟩, 5, 0⟩).1.posSize
          = 5 + 5 / 2 := by
  constructor
  · have h := ((buy_size_formula ⟨2, 0⟩ (initState 100) ⟨⟨11, 10, 10⟩, 5, 0⟩).1
      rfl (by norm_num)).1
    rw [h]
    norm_num
  · have h := ((buy_size_formula ⟨2, 0⟩ ⟨100, 5, 10, 1, [10], []⟩ ⟨⟨21, 20, 20⟩, 5, 0⟩).2
      (by norm_num) (by norm_num) (by norm_num) (by norm_num)).1
    rw [h]
    norm_num

/-- Pointwise description of the drawdown terms over a running maximum
continued from `m`: the term at index `i` compares the element with the
fold of `max` over the prefix up to `i`, seeded by `m`. -/
theorem zipWith_cummaxFrom_eq (xs : List ℚ) (m : ℚ) :
    List.zipWith ddTerm xs (cummaxFrom m xs)
      = (List.range xs.length).map
          (fun i => ddTerm (xs.getD i 0) ((xs.take (i + 1)).foldl max m)) := by
  induction xs generalizing m with
  | nil => simp [cummaxFrom]
  | cons x xs ih =>
    simp only [cummaxFrom, List.zipWith_cons_cons, List.length_cons,
      List.range_succ_eq_map, List.map_cons, List.map_map]
    congr 1
    rw [ih (max m x)]
    exact List.map_congr_left (fun i _ => rfl)

/-- The elementwise drawdown list of `stop` equals its index-based
description: at each index, the element against the maximum of the prefix
up to that index. -/
theorem drawdown_lists_eq (l : List ℚ) :
    List.zipWith ddTerm l (cummax l)
      = (List.range l.length).map
          (fun i => ddTerm (l.getD i 0) (listMax (l.take (i + 1)))) := by
  cases l with
  | nil => rfl
  | cons x xs =>
    simp only [cummax, List.zipWith_cons_cons, List.length_cons,
      List.range_succ_eq_map, List.map_cons, List.map_map]
    congr 1
    rw [zipWith_cummaxFrom_eq xs x]
    exact List.map_congr_left (fun i _ => rfl)

/-- C4: the `stop` maximum-drawdown computation equals the specification's
description: normalize by the first sample, take the running maximum (peak)
up to each index, form `(normalized - peak) / peak` at each index, and
return the minimum times `100`. -/
theorem maxDrawdown_eq_spec (ec : List ℚ) : maxDrawdown ec = specMaxDrawdown ec := by
  simp only [maxDrawdown, specMaxDrawdown, List.length_map]
  rw [drawdown_lists_eq]
  simp

/-- Each drawdown term over positive data lies in `[-1, 0]`: the running
maximum dominates the element and is positive. -/
theorem zip_cummaxFrom_mem_bounds (xs : List ℚ) (m : ℚ) (hpos : ∀ v ∈ xs, 0 < v) :
    ∀ d ∈ List.zipWith ddTerm xs (cummaxFrom m xs), -1 ≤ d ∧ d ≤ 0 := by
  induction xs generalizing m with
  | nil => intro d hd; simp [cummaxFrom] at hd
  | cons x xs ih =>
    intro d hd
    simp only [cummaxFrom, List.zipWith_cons_cons, List.mem_cons] at hd
    rcases hd with rfl | hd
    · have hx : 0 < x := hpos x (by simp)
      have hxp : x ≤ max m x := le_max_right m x
      have hp : 0 < max m x := lt_of_lt_of_le hx hxp
      constructor
      · show -1 ≤ (x - max m x) / max m x
        rw [le_div_iff₀ hp]
        linarith
      · show (x - max m x) / max m x ≤ 0
        rw [div_le_iff₀ hp]
        linarith
    · exact ih (max m x) (fun v hv => hpos v (by simp [hv])) d hd

/-- A left fold of `min` never exceeds its seed. -/
theorem foldl_min_le (l : List ℚ) : ∀ x : ℚ, l.foldl min x ≤ x := by
  induction l with
  | nil => intro x; simp
  | cons y ys ih =>
    intro x
    simp only [List.foldl_cons]
    exact le_trans (ih (min x y)) (min_le_left x y)

/-- A lower bound on the seed and all elements bounds a left fold of
`min`. -/
theorem le_foldl_min (l : List ℚ) :
    ∀ x a : ℚ, a ≤ x → (∀ d ∈ l, a ≤ d) → a ≤ l.foldl min x := by
  induction l with
  | nil => intro x a h _; simpa using h
  | cons y ys ih =>
    intro x a hx hall
    simp only [List.foldl_cons]
    exact ih (min x y) a (le_min hx (hall y (by simp))) (fun d hd => hall d (by simp [hd]))

/-- On a non-decreasing list dominated below by the seed, the running
maximum is the list itself. -/
theorem cummaxFrom_of_chain (xs : List ℚ) (m : ℚ)
    (h : List.Chain' (· ≤ ·) (m :: xs)) : cummaxFrom m xs = xs := by
  induction xs generalizing m with
  | nil => rfl
  | cons x xs ih =>
    rw [List.chain'_cons] at h
    simp only [cummaxFrom]
    rw [max_eq_right h.1, ih x h.2]

/-- Drawdown of a list against itself is identically zero. -/
theorem zipWith_ddTerm_self (l : List ℚ) :
    List.zipWith ddTerm l l = List.replicate l.length 0 := by
  induction l with
  | nil => rfl
  | cons x xs ih =>
    simp [List.zipWith_cons_cons, ih, List.replicate_succ, ddTerm]

/-- Folding `min` from `0` over zeros gives `0`. -/
theorem foldl_min_replicate_zero :
    ∀ n : ℕ, (List.replicate n (0 : ℚ)).foldl min 0 = 0 := by
  intro n
  induction n with
  | zero => rfl
  | succ k ih => simp [List.replicate_succ, List.foldl_cons, min_self, ih]

/-- C5: for every non-empty equity curve of positive samples the computed
maximum drawdown percentage lies in `[-100, 0]`, and it is `0` whenever the
curve is non-decreasing. -/
theorem maxDrawdown_bounds (ec : List ℚ) (hne : ec ≠ [])
    (hpos : ∀ v ∈ ec, 0 < v) :
    maxDrawdown ec ≤ 0 ∧ -100 ≤ maxDrawdown ec
      ∧ (List.Chain' (· ≤ ·) ec → maxDrawdown ec = 0) := by
  obtain ⟨e, es, rfl⟩ := List.exists_cons_of_ne_nil hne
  have he : 0 < e := hpos e (by simp)
  have hL : (e :: es).map (fun v => v / (e :: es).headI)
      = (e / e) :: es.map (fun v => v / e) := by
    simp [List.headI]
  have hdd0 : ddTerm (e / e) (e / e) = 0 := by
    simp [ddTerm]
  have hmain : maxDrawdown (e :: es)
      = (List.zipWith ddTerm (es.map (fun v => v / e))
          (cummaxFrom (e / e) (es.map (fun v => v / e)))).foldl min 0 * 100 := by
    simp only [maxDrawdown, hL, cummax, List.zipWith_cons_cons, listMin, hdd0]
  have hnspos : ∀ v ∈ es.map (fun v => v / e), 0 < v := by
    intro v hv
    obtain ⟨w, hw, rfl⟩ := List.mem_map.mp hv
    exact div_pos (hpos w (by simp [hw])) he
  have hbounds := zip_cummaxFrom_mem_bounds (es.map (fun v => v / e)) (e / e) hnspos
  refine ⟨?_, ?_, ?_⟩
  · rw [hmain]
    have h1 := foldl_min_le (List.zipWith ddTerm (es.map (fun v => v / e))
      (cummaxFrom (e / e) (es.map (fun v => v / e)))) 0
    linarith
  · rw [hmain]
    have h1 := le_foldl_min (List.zipWith ddTerm (es.map (fun v => v / e))
      (cummaxFrom (e / e) (es.map (fun v => v / e)))) 0 (-1) (by norm_num)
      (fun d hd => (hbounds d hd).1)
    linarith
  · intro hch
    have hchain2 : List.Chain' (· ≤ ·) ((e / e) :: es.map (fun v => v / e)) := by
      have h2 : List.Chain' (· ≤ ·) ((e :: es).map (fun v => v / e)) :=
        (List.chain'_map _).mpr
          (hch.imp fun a b hab => (div_le_div_iff_of_pos_right he).mpr hab)
      simpa using h2
    rw [hmain, cummaxFrom_of_chain _ _ hchain2, zipWith_ddTerm_self,
      foldl_min_replicate_zero, zero_mul]

/-- C5 (witness): the curve `[1, 2]` is non-empty, positive and
non-decreasing, so its maximum drawdown is within bounds and zero. -/
theorem maxDrawdown_bounds_witness :
    maxDrawdown [1, 2] ≤ 0 ∧ -100 ≤ maxDrawdown [1, 2] ∧ maxDrawdown [1, 2] = 0 := by
  have h := maxDrawdown_bounds [1, 2] (by simp)
    (by intro v hv; simp at hv; rcases hv with rfl | rfl <;> norm_num)
  exact ⟨h.1, h.2.1, h.2.2 (by norm_num [List.chain'_cons])⟩

